import Mathlib

/-!
Verification of the progressive Mandelbrot renderer in `src/main.rs`
(`fractal-explorer-rs`).

Shallow embedding conventions:
* `u32` quantities (pixel coordinates, indices, iteration counts) are
  modelled as `Nat`; at the one place where a `u32` product can plausibly
  wrap (`255 * n` in the brightness computation) and at the `as u8`
  narrowing, the wraparound is made explicit with `% 2 ^ 32` / `% 256`.
* `f64` quantities (complex coordinates, the zoom domain) are modelled as
  `ℚ`, i.e. exact arithmetic: the claims settled against these
  definitions concern the algorithmic structure and concrete inputs whose
  `f64` orbits are exact (small integers, halves).
* The SDL canvas is modelled as a grayscale buffer `Nat → Nat → Nat`
  together with a clipped `fill_rect`: SDL clips draws to the target, so
  a rectangle is written only where it meets `[0, width) × [0, height)`.
* The frame loop's `Instant::elapsed().subsec_nanos()` readings are
  modelled as a list of synthetic elapsed-nanosecond values.
-/

namespace FractalExplorer

/-- `struct RenderParams` from main.rs; `Complex64 center` is split into
its two coordinates, `f64` is modelled as `ℚ`. -/
structure RenderParams where
  center_re : ℚ
  center_im : ℚ
  width : Nat
  height : Nat
  real_domain : ℚ
  max_iter : Nat
deriving DecidableEq

/-- `struct RenderProgress` from main.rs. -/
structure RenderProgress where
  done : Bool
  index_x : Nat
  index_y : Nat
  block_size : Nat
deriving DecidableEq

/-- The grayscale frame buffer: pixel `(x, y)` holds an 8-bit gray value.
The code writes `Color::RGB(b, b, b)`, so one channel determines all. -/
def Buffer : Type := Nat → Nat → Nat

/-- `canvas.fill_rect(Rect::new(x0, y0, rw, rh))` with draw color `c`:
SDL clips the rectangle to the `w × h` render target. -/
def fillRect (w h : Nat) (buf : Buffer) (x0 y0 rw rh c : Nat) : Buffer :=
  fun px py =>
    if px < w ∧ py < h ∧ x0 ≤ px ∧ px < x0 + rw ∧ y0 ≤ py ∧ py < y0 + rh
    then c else buf px py

/-- Complex multiplication on `ℚ × ℚ` (the `Complex64::mul` used by the code). -/
def cmul (a b : ℚ × ℚ) : ℚ × ℚ :=
  (a.1 * b.1 - a.2 * b.2, a.1 * b.2 + a.2 * b.1)

/-- Complex addition on `ℚ × ℚ`. -/
def cadd (a b : ℚ × ℚ) : ℚ × ℚ := (a.1 + b.1, a.2 + b.2)

/-- `Complex64::norm_sqr`. -/
def norm_sqr (z : ℚ × ℚ) : ℚ := z.1 * z.1 + z.2 * z.2

/-- The loop body of `fn mandelbrot`:
`while z.norm_sqr() < 4.0 && n < max_iter { z = z*z + z_0; n += 1 }`.
`fuel` is the number of iterations still allowed, i.e. `max_iter - n`. -/
def mandelbrotLoop (z_0 : ℚ × ℚ) : Nat → ℚ × ℚ → Nat → Nat
  | 0, _, n => n
  | fuel + 1, z, n =>
    if norm_sqr z < 4 then mandelbrotLoop z_0 fuel (cadd (cmul z z) z_0) (n + 1)
    else n

/-- `fn mandelbrot(z_0, max_iter)` from main.rs. -/
def mandelbrot (z_0 : ℚ × ℚ) (max_iter : Nat) : Nat :=
  mandelbrotLoop z_0 max_iter z_0 0

/-- The orbit `z_{k+1} = z_k^2 + z_0`, `z_0 = z_0` — the sequence the spec's
escape-time contract quantifies over. -/
def orbit (z_0 : ℚ × ℚ) : Nat → ℚ × ℚ
  | 0 => z_0
  | n + 1 => cadd (cmul (orbit z_0 n) (orbit z_0 n)) z_0

/-- `fn screen_to_world(x, y, render_params)` from main.rs, over `ℚ`. -/
def screen_to_world (x y : Nat) (render_params : RenderParams) : ℚ × ℚ :=
  let w : ℚ := (render_params.width : ℚ)
  let h : ℚ := (render_params.height : ℚ)
  let xq : ℚ := (x : ℚ)
  let yq : ℚ := (y : ℚ)
  let complex_domain : ℚ := render_params.real_domain * h / w
  let world_re : ℚ := render_params.center_re + render_params.real_domain * (xq - w / 2) / w
  let world_im : ℚ := render_params.center_im + complex_domain * (yq - h / 2) / h
  (world_re, world_im)

/-- `2^32`, the `u32` modulus. -/
def U32 : Nat := 2 ^ 32

/-- `(255 * n / max_iter) as u8` from line 67 of main.rs, with the `u32`
product wraparound and the `as u8` narrowing explicit. -/
def brightnessOf (n max_iter : Nat) : Nat := 255 * n % U32 / max_iter % 256

/-- `fn step` from main.rs.  Note the three guarded adjustments are
sequential `if`s, not `else if`s: all applicable ones run in one call,
and the paint branch reuses the `screen_tl_*` values computed at entry. -/
def step (render_params : RenderParams) (buf : Buffer) (s : RenderProgress) :
    Buffer × RenderProgress :=
  let screen_tl_x := s.index_x * s.block_size
  let screen_tl_y := s.index_y * s.block_size
  let s1 := if render_params.width < screen_tl_x then
    { s with index_x := 0, index_y := s.index_y + 1 } else s
  let s2 := if render_params.height < screen_tl_y then
    { s1 with index_y := 0, block_size := s1.block_size / 2 } else s1
  if s2.block_size < 1 then
    (buf, { s2 with done := true })
  else
    let screen_cx := screen_tl_x + s2.block_size / 2
    let screen_cy := screen_tl_y + s2.block_size / 2
    let z_0 := screen_to_world screen_cx screen_cy render_params
    let n := mandelbrot z_0 render_params.max_iter
    let brightness := brightnessOf n render_params.max_iter
    (fillRect render_params.width render_params.height buf
       screen_tl_x screen_tl_y s2.block_size s2.block_size brightness,
     { s2 with index_x := s2.index_x + 1 })

/-- The state component of `step`: it depends only on `width` and `height`
of the parameters (the painting does not feed back into the traversal). -/
def stepState (w h : Nat) (s : RenderProgress) : RenderProgress :=
  let screen_tl_x := s.index_x * s.block_size
  let screen_tl_y := s.index_y * s.block_size
  let s1 := if w < screen_tl_x then
    { s with index_x := 0, index_y := s.index_y + 1 } else s
  let s2 := if h < screen_tl_y then
    { s1 with index_y := 0, block_size := s1.block_size / 2 } else s1
  if s2.block_size < 1 then { s2 with done := true }
  else { s2 with index_x := s2.index_x + 1 }

/-- The initial `RenderProgress` literal used at lines 136-141 and 214-219. -/
def initProgress : RenderProgress :=
  { done := false, index_x := 0, index_y := 0, block_size := 128 }

/-- The per-frame reset check, lines 212-220 of main.rs:
`if render_params != new_render_params { replace params; reset progress }`. -/
def frameUpdate (render_params new_render_params : RenderParams)
    (render_progress : RenderProgress) : RenderParams × RenderProgress :=
  if render_params ≠ new_render_params then (new_render_params, initProgress)
  else (render_params, render_progress)

/-- Iteration-cap decrease (key Q), lines 173-174:
`max_iter /= 2; max_iter = cmp::max(max_iter, 1)`. -/
def iterDown (max_iter : Nat) : Nat := max (max_iter / 2) 1

/-- Iteration-cap increase (key E), lines 176-177:
`max_iter *= 2; max_iter = cmp::min(max_iter, 1 << 20)` (`u32` product
wraparound explicit). -/
def iterUp (max_iter : Nat) : Nat := min (max_iter * 2 % U32) (2 ^ 20)

/-- The 16 ms frame budget in nanoseconds, line 224. -/
def budgetNanos : Int := 16000000

/-- `Instant::elapsed().subsec_nanos()`: the sub-second component of the
elapsed time, which wraps every `10^9` ns. -/
def subsecNanos (elapsed : Nat) : Nat := elapsed % 1000000000

/-- The render loop of lines 224-228, driven by a synthetic clock: given
the successive elapsed-nanosecond values observed at each
`start_time.elapsed()` read, how many `step` calls the `while` loop issues.
The k-th reading is taken before the (k+1)-th potential `step` call. -/
def stepsIssued : List Nat → Nat
  | [] => 0
  | e :: rest =>
    if 0 < budgetNanos - (subsecNanos e : Int) then stepsIssued rest + 1
    else 0

/-- Upper bound on the number of `step` calls spent at one resolution
level `bs`: at most `h / bs + 3` row segments of at most `w / bs + 2`
calls each, plus the transition call into the level. -/
def passBound (w h bs : Nat) : Nat := (h / bs + 3) * (w / bs + 2) + 1

/-- Upper bound on the number of `step` calls from the start of the
resolution level `bs` down to `done = true`. -/
def totalBound (w h : Nat) : Nat → Nat
  | 0 => 1
  | bs + 1 => passBound w h (bs + 1) + totalBound w h ((bs + 1) / 2)
decreasing_by simp_wf; omega

/-- Remaining-work estimate inside the current resolution level. -/
def innerRank (w h : Nat) (s : RenderProgress) : Nat :=
  (h / s.block_size + 2 - s.index_y) * (w / s.block_size + 2) +
    (w / s.block_size + 2 - s.index_x)

/-- Ranking function for the traversal: strictly decreases at every
`stepState` call on a not-yet-done state. -/
def rank (w h : Nat) (s : RenderProgress) : Nat :=
  if s.done then 0
  else if s.block_size = 0 then 1
  else innerRank w h s + totalBound w h (s.block_size / 2) + 1

/-! ## Escape-time evaluator -/

lemma orbit_succ (z_0 : ℚ × ℚ) (n : Nat) :
    orbit z_0 (n + 1) = cadd (cmul (orbit z_0 n) (orbit z_0 n)) z_0 := rfl

lemma mandelbrotLoop_spec (z_0 : ℚ × ℚ) :
    ∀ (fuel k : Nat),
      k ≤ mandelbrotLoop z_0 fuel (orbit z_0 k) k ∧
      mandelbrotLoop z_0 fuel (orbit z_0 k) k ≤ k + fuel ∧
      (∀ j, k ≤ j → j < mandelbrotLoop z_0 fuel (orbit z_0 k) k →
        norm_sqr (orbit z_0 j) < 4) ∧
      (mandelbrotLoop z_0 fuel (orbit z_0 k) k < k + fuel →
        4 ≤ norm_sqr (orbit z_0 (mandelbrotLoop z_0 fuel (orbit z_0 k) k))) := by
  intro fuel
  induction fuel with
  | zero =>
    intro k
    refine ⟨le_refl _, by simp [mandelbrotLoop], ?_, ?_⟩
    · intro j hkj hjk
      simp [mandelbrotLoop] at hjk
      omega
    · intro h
      simp [mandelbrotLoop] at h
  | succ fuel ih =>
    intro k
    by_cases h4 : norm_sqr (orbit z_0 k) < 4
    · have hstep : mandelbrotLoop z_0 (fuel + 1) (orbit z_0 k) k
          = mandelbrotLoop z_0 fuel (orbit z_0 (k + 1)) (k + 1) := by
        rw [mandelbrotLoop, if_pos h4, orbit_succ]
      obtain ⟨ih1, ih2, ih3, ih4⟩ := ih (k + 1)
      rw [hstep]
      refine ⟨by omega, by omega, ?_, ?_⟩
      · intro j hkj hjl
        rcases Nat.eq_or_lt_of_le hkj with hje | hjlt
        · rwa [← hje]
        · exact ih3 j hjlt hjl
      · intro hlt
        exact ih4 (by omega)
    · have hstep : mandelbrotLoop z_0 (fuel + 1) (orbit z_0 k) k = k := by
        rw [mandelbrotLoop, if_neg h4]
      rw [hstep]
      refine ⟨le_refl _, by omega, ?_, fun _ => not_lt.mp h4⟩
      intro j hkj hjk
      omega

lemma mandelbrot_spec (z_0 : ℚ × ℚ) (m : Nat) :
    mandelbrot z_0 m ≤ m ∧
    (∀ j, j < mandelbrot z_0 m → norm_sqr (orbit z_0 j) < 4) ∧
    (mandelbrot z_0 m < m → 4 ≤ norm_sqr (orbit z_0 (mandelbrot z_0 m))) := by
  have h := mandelbrotLoop_spec z_0 m 0
  rw [show orbit z_0 0 = z_0 from rfl] at h
  obtain ⟨_, h2, h3, h4⟩ := h
  exact ⟨by simpa using h2, fun j hj => h3 j (Nat.zero_le j) hj, by simpa using h4⟩

lemma mandelbrot_le (z_0 : ℚ × ℚ) (m : Nat) : mandelbrot z_0 m ≤ m :=
  (mandelbrot_spec z_0 m).1

/-- If the orbit never escapes within the first `m` iterations, the loop
runs to its cap. -/
lemma mandelbrot_eq_of_no_escape (z_0 : ℚ × ℚ) (m : Nat)
    (h : ∀ n, n < m → norm_sqr (orbit z_0 n) < 4) : mandelbrot z_0 m = m := by
  obtain ⟨h1, _, h3⟩ := mandelbrot_spec z_0 m
  rcases Nat.eq_or_lt_of_le h1 with he | hlt
  · exact he
  · exact absurd (h3 hlt) (not_le.mpr (h (mandelbrot z_0 m) hlt))

lemma orbit_zero (n : Nat) : orbit ((0 : ℚ), (0 : ℚ)) n = ((0 : ℚ), (0 : ℚ)) := by
  induction n with
  | zero => rfl
  | succ n ih => rw [orbit_succ, ih]; simp [cmul, cadd]

/-- C3: `mandelbrot` returns the smallest `n` with `|z_n|^2 >= 4` along the
orbit `z_{k+1} = z_k^2 + z_0`, or `max_iter` when no such `n < max_iter`
exists; the origin yields `max_iter`, the point `2 + 0i` yields `0` for any
`max_iter >= 1`, and the result never exceeds `max_iter`. -/
theorem mandelbrot_escape_time_correct (z_0 : ℚ × ℚ) (m : Nat) :
    mandelbrot z_0 m ≤ m ∧
    ((∃ n, n < m ∧ 4 ≤ norm_sqr (orbit z_0 n)) →
      (4 ≤ norm_sqr (orbit z_0 (mandelbrot z_0 m)) ∧
        ∀ k, k < mandelbrot z_0 m → norm_sqr (orbit z_0 k) < 4)) ∧
    ((∀ n, n < m → norm_sqr (orbit z_0 n) < 4) → mandelbrot z_0 m = m) ∧
    mandelbrot ((0 : ℚ), (0 : ℚ)) m = m ∧
    (1 ≤ m → mandelbrot ((2 : ℚ), (0 : ℚ)) m = 0) := by
  obtain ⟨h1, h3, h4⟩ := mandelbrot_spec z_0 m
  refine ⟨h1, ?_, mandelbrot_eq_of_no_escape z_0 m, ?_, ?_⟩
  · rintro ⟨n, hnm, hesc⟩
    have hlt : mandelbrot z_0 m < m := by
      rcases Nat.eq_or_lt_of_le h1 with he | hlt
      · exact absurd (h3 n (by omega)) (not_lt.mpr hesc)
      · exact hlt
    exact ⟨h4 hlt, h3⟩
  · exact mandelbrot_eq_of_no_escape _ m (fun n _ => by rw [orbit_zero]; norm_num [norm_sqr])
  · intro hm
    rcases m with _ | mm
    · omega
    · simp only [mandelbrot, mandelbrotLoop]
      norm_num [norm_sqr]

/-- Concrete instance of `mandelbrot_escape_time_correct`: the origin with
cap 3, and `2 + 0i` with cap 3. -/
theorem mandelbrot_escape_time_correct_witness :
    mandelbrot ((0 : ℚ), (0 : ℚ)) 3 = 3 ∧ mandelbrot ((2 : ℚ), (0 : ℚ)) 3 = 0 :=
  ⟨(mandelbrot_escape_time_correct ((0 : ℚ), (0 : ℚ)) 3).2.2.2.1,
   (mandelbrot_escape_time_correct ((2 : ℚ), (0 : ℚ)) 3).2.2.2.2 (by omega)⟩

/-! ## The advance function `step` -/

/-- Concrete 4×4 viewport used for witnesses. -/
def sampleParams : RenderParams :=
  { center_re := 0, center_im := 0, width := 4, height := 4,
    real_domain := 4, max_iter := 1 }

/-- A second, distinct parameter value (different `max_iter`). -/
def sampleParams2 : RenderParams :=
  { center_re := 0, center_im := 0, width := 4, height := 4,
    real_domain := 4, max_iter := 2 }

/-- Concrete 2×2 viewport used for witnesses. -/
def smallParams : RenderParams :=
  { center_re := 0, center_im := 0, width := 2, height := 2,
    real_domain := 4, max_iter := 1 }

/-- All-black buffer used for witnesses. -/
def zeroBuffer : Buffer := fun _ _ => 0

/-- The state component of `step` is `stepState` at the viewport dimensions. -/
lemma step_snd (p : RenderParams) (buf : Buffer) (s : RenderProgress) :
    (step p buf s).2 = stepState p.width p.height s := by
  by_cases h1 : p.width < s.index_x * s.block_size <;>
  by_cases h2 : p.height < s.index_y * s.block_size <;>
  simp only [step, stepState, h1, h2, if_true, if_false] <;>
  split <;> rfl

/-- C7: the `done` state the engine reaches has `block_size = 0`; on it,
`step` returns immediately, writes nothing, and changes no field. -/
theorem step_noop_when_done (p : RenderParams) (buf : Buffer) (s : RenderProgress)
    (hd : s.done = true) (hb : s.block_size = 0) :
    step p buf s = (buf, s) := by
  obtain ⟨d, ix, iy, bs⟩ := s
  simp only at hd hb
  subst hd; subst hb
  simp [step]

/-- Concrete instance of `step_noop_when_done`. -/
theorem step_noop_when_done_witness :
    step sampleParams zeroBuffer ⟨true, 1, 0, 0⟩ = (zeroBuffer, ⟨true, 1, 0, 0⟩) :=
  step_noop_when_done sampleParams zeroBuffer ⟨true, 1, 0, 0⟩ rfl rfl

/-- C6: the per-frame check resets the render progress to its initial
values exactly when the newly computed parameters differ by value from the
current ones, and leaves it untouched when they are equal. -/
theorem reset_iff_params_changed (p q : RenderParams) (s : RenderProgress) :
    (p ≠ q → frameUpdate p q s = (q, initProgress)) ∧
    (p = q → frameUpdate p q s = (p, s)) := by
  constructor
  · intro h; simp [frameUpdate, h]
  · intro h; simp [frameUpdate, h]

/-- Concrete instance of `reset_iff_params_changed`: differing parameters
reset mid-render progress; equal parameters keep it. -/
theorem reset_iff_params_changed_witness :
    frameUpdate sampleParams sampleParams2 ⟨false, 3, 1, 2⟩ = (sampleParams2, initProgress) ∧
    frameUpdate sampleParams sampleParams ⟨false, 3, 1, 2⟩ = (sampleParams, ⟨false, 3, 1, 2⟩) :=
  ⟨(reset_iff_params_changed sampleParams sampleParams2 ⟨false, 3, 1, 2⟩).1 (by decide),
   (reset_iff_params_changed sampleParams sampleParams ⟨false, 3, 1, 2⟩).2 rfl⟩

/-- C1, counterexample: from the state `(index_x, index_y, block_size) =
(3, 0, 2)` on a 4×4 viewport the row-wrap guard fires (`3 * 2 > 4`), yet
the call does not stop at the wrap `index_x = 0; index_y += 1`: it falls
through to the paint branch and ends with `index_x = 1`.  The resulting
state matches none of the four exclusive per-call outcomes the claim
allows (wrap only, halve only, done, paint-and-advance only). -/
theorem step_not_exactly_one_action :
    4 < 3 * 2 ∧
    (step sampleParams zeroBuffer ⟨false, 3, 0, 2⟩).2 = ⟨false, 1, 1, 2⟩ ∧
    (⟨false, 1, 1, 2⟩ : RenderProgress) ≠ ⟨false, 0, 1, 2⟩ ∧
    (⟨false, 1, 1, 2⟩ : RenderProgress) ≠ ⟨false, 3, 0, 1⟩ ∧
    (⟨false, 1, 1, 2⟩ : RenderProgress) ≠ ⟨true, 3, 0, 2⟩ ∧
    (⟨false, 1, 1, 2⟩ : RenderProgress) ≠ ⟨false, 4, 0, 2⟩ := by
  refine ⟨by omega, ?_, by decide, by decide, by decide, by decide⟩
  rw [step_snd]
  decide

/-- C1, amended: the guarded adjustments are applied in sequence and are
not exclusive with the paint branch.  Still, whenever the row-wrap guard
(`screen_tl_x > width`) or the halving guard (`screen_tl_y > height`)
fires, the call writes no in-bounds pixel: the fall-through paint targets
the stale off-screen rectangle, which SDL clips away entirely.  When only
the row-wrap guard fires (and `block_size >= 1`), the state after the call
is `index_x = 1` (wrap to 0, then the fall-through `index_x += 1`),
`index_y + 1`, with `block_size` and `done` unchanged. -/
theorem step_guard_writes_nothing (p : RenderParams) (buf : Buffer)
    (s : RenderProgress) (px py : Nat)
    (hg : p.width < s.index_x * s.block_size ∨ p.height < s.index_y * s.block_size)
    (hpx : px < p.width) (hpy : py < p.height) :
    (step p buf s).1 px py = buf px py ∧
    (p.width < s.index_x * s.block_size → ¬ p.height < s.index_y * s.block_size →
      1 ≤ s.block_size →
      (step p buf s).2 = ⟨s.done, 1, s.index_y + 1, s.block_size⟩) := by
  obtain ⟨d, ix, iy, bs⟩ := s
  simp only at hg hpx hpy
  constructor
  · by_cases h1 : p.width < ix * bs <;>
    by_cases h2 : p.height < iy * bs <;>
    simp only [step, h1, h2, if_true, if_false] <;>
    first
      | omega
      | (split
         · rfl
         · simp only [fillRect]
           rw [if_neg]
           rintro ⟨u1, u2, u3, u4, u5, u6⟩
           omega)
  · intro h1 h2 h3
    simp only at h1 h2 h3
    rw [step_snd]
    simp [stepState, h1, h2, Nat.not_lt.mpr h3]

/-- Concrete instance of `step_guard_writes_nothing` at the wrap state
`(3, 0, 2)` on the 4×4 viewport. -/
theorem step_guard_writes_nothing_witness :
    (step sampleParams zeroBuffer ⟨false, 3, 0, 2⟩).1 0 0 = zeroBuffer 0 0 ∧
    (step sampleParams zeroBuffer ⟨false, 3, 0, 2⟩).2 = ⟨false, 1, 1, 2⟩ := by
  have h := step_guard_writes_nothing sampleParams zeroBuffer ⟨false, 3, 0, 2⟩ 0 0
    (Or.inl (by decide)) (by decide) (by decide)
  exact ⟨h.1, h.2 (by decide) (by decide) (by decide)⟩

/-- `255 * n / max_iter` computed in `u32` then narrowed `as u8` is exact
when `n ≤ max_iter ≤ 2^20`. -/
lemma brightnessOf_eq (n mi : Nat) (hn : n ≤ mi) (hmi : mi ≤ 2 ^ 20) :
    brightnessOf n mi = 255 * n / mi := by
  unfold brightnessOf U32
  have h1 : 255 * n < 2 ^ 32 := by
    calc 255 * n ≤ 255 * 2 ^ 20 := Nat.mul_le_mul_left _ (le_trans hn hmi)
    _ < 2 ^ 32 := by norm_num
  rw [Nat.mod_eq_of_lt h1]
  rcases Nat.eq_zero_or_pos mi with h | h
  · subst h
    interval_cases n
    simp
  · have h2 : 255 * n / mi ≤ 255 := by
      have := Nat.div_le_div_right (c := mi) (Nat.mul_le_mul_left 255 hn)
      rwa [Nat.mul_div_cancel _ h] at this
    exact Nat.mod_eq_of_lt (by omega)

/-- C2: on a state with `done = false`, `block_size >= 1` and neither
guard firing, `step` samples the complex point at the center of the
current block, paints the block's pixel rectangle (clipped to the buffer)
with the solid gray `floor(255 * n / max_iter)`, a sample reaching
`max_iter` giving 255, and advances only `index_x`, by exactly 1.
`1 ≤ max_iter ≤ 2^20` is the engine's own parameter invariant. -/
theorem paint_step_correct (p : RenderParams) (buf : Buffer) (s : RenderProgress)
    (px py : Nat)
    (hdone : s.done = false) (hbs : 1 ≤ s.block_size)
    (hx : s.index_x * s.block_size ≤ p.width)
    (hy : s.index_y * s.block_size ≤ p.height)
    (hmi1 : 1 ≤ p.max_iter) (hmi2 : p.max_iter ≤ 2 ^ 20)
    (hpx : px < p.width) (hpy : py < p.height) :
    (step p buf s).2 = ⟨false, s.index_x + 1, s.index_y, s.block_size⟩ ∧
    (step p buf s).1 px py =
      (if s.index_x * s.block_size ≤ px ∧ px < s.index_x * s.block_size + s.block_size ∧
          s.index_y * s.block_size ≤ py ∧ py < s.index_y * s.block_size + s.block_size
        then 255 * mandelbrot (screen_to_world
            (s.index_x * s.block_size + s.block_size / 2)
            (s.index_y * s.block_size + s.block_size / 2) p) p.max_iter / p.max_iter
        else buf px py) ∧
    (mandelbrot (screen_to_world (s.index_x * s.block_size + s.block_size / 2)
        (s.index_y * s.block_size + s.block_size / 2) p) p.max_iter = p.max_iter →
      255 * mandelbrot (screen_to_world (s.index_x * s.block_size + s.block_size / 2)
        (s.index_y * s.block_size + s.block_size / 2) p) p.max_iter / p.max_iter = 255) := by
  obtain ⟨d, ix, iy, bs⟩ := s
  simp only at hdone hbs hx hy ⊢
  subst hdone
  have hnx : ¬ p.width < ix * bs := not_lt.mpr hx
  have hny : ¬ p.height < iy * bs := not_lt.mpr hy
  refine ⟨?_, ?_, ?_⟩
  · rw [step_snd]
    simp [stepState, hnx, hny, Nat.not_lt.mpr hbs]
  · simp only [step, hnx, hny, if_false, ite_false]
    rw [if_neg (by omega)]
    simp only [fillRect, hpx, hpy, true_and]
    rw [brightnessOf_eq _ _ (mandelbrot_le _ _) hmi2]
  · intro h
    rw [h]
    exact Nat.mul_div_cancel 255 (by omega)

/-- Concrete instance of `paint_step_correct` on the 2×2 viewport: the
block at `(0,0)` with `block_size = 1` is painted and `index_x` advances
to 1. -/
theorem paint_step_correct_witness :
    (step smallParams zeroBuffer ⟨false, 0, 0, 1⟩).2 = ⟨false, 1, 0, 1⟩ ∧
    (step smallParams zeroBuffer ⟨false, 0, 0, 1⟩).1 0 0 =
      255 * mandelbrot (screen_to_world 0 0 smallParams) smallParams.max_iter /
        smallParams.max_iter := by
  have h := paint_step_correct smallParams zeroBuffer ⟨false, 0, 0, 1⟩ 0 0
    rfl (by decide) (by decide) (by decide) (by decide) (by decide) (by decide) (by decide)
  refine ⟨h.1, ?_⟩
  rw [h.2.1]
  norm_num

/-! ## Traversal termination and the resolution ladder -/

lemma stepState_scan (w h : Nat) (d : Bool) (ix iy bs : Nat)
    (hx : ¬ w < ix * bs) (hy : ¬ h < iy * bs) (hbs : 1 ≤ bs) :
    stepState w h ⟨d, ix, iy, bs⟩ = ⟨d, ix + 1, iy, bs⟩ := by
  simp [stepState, hx, hy, Nat.not_lt.mpr hbs]

lemma stepState_wrap (w h : Nat) (d : Bool) (ix iy bs : Nat)
    (hx : w < ix * bs) (hy : ¬ h < iy * bs) (hbs : 1 ≤ bs) :
    stepState w h ⟨d, ix, iy, bs⟩ = ⟨d, 1, iy + 1, bs⟩ := by
  simp [stepState, hx, hy, Nat.not_lt.mpr hbs]

lemma stepState_halve (w h : Nat) (d : Bool) (ix iy bs : Nat)
    (hy : h < iy * bs) (hh : 1 ≤ bs / 2) :
    stepState w h ⟨d, ix, iy, bs⟩ = ⟨d, (if w < ix * bs then 0 else ix) + 1, 0, bs / 2⟩ := by
  by_cases hx : w < ix * bs <;> simp [stepState, hx, hy, Nat.not_lt.mpr hh]

lemma stepState_halve_done (w h : Nat) (d : Bool) (ix iy bs : Nat)
    (hy : h < iy * bs) (hh : bs / 2 = 0) :
    stepState w h ⟨d, ix, iy, bs⟩ = ⟨true, if w < ix * bs then 0 else ix, 0, 0⟩ := by
  by_cases hx : w < ix * bs <;> simp [stepState, hx, hy, hh]

lemma stepState_zero (w h : Nat) (d : Bool) (ix iy : Nat) :
    stepState w h ⟨d, ix, iy, 0⟩ = ⟨true, ix, iy, 0⟩ := by
  simp [stepState]

lemma totalBound_pos (w h m : Nat) (hm : 0 < m) :
    totalBound w h m = passBound w h m + totalBound w h (m / 2) := by
  rcases m with _ | mm
  · omega
  · rw [totalBound]

lemma rank_ge_one (w h : Nat) (s : RenderProgress) (hd : s.done = false) :
    1 ≤ rank w h s := by
  obtain ⟨d, ix, iy, bs⟩ := s
  simp only at hd
  subst hd
  rcases Nat.eq_zero_or_pos bs with h0 | h1
  · simp [rank, h0]
  · simp [rank, Nat.pos_iff_ne_zero.mp h1]

lemma rank_of_live (w h : Nat) (ix iy bs : Nat) (hbs : 1 ≤ bs) :
    rank w h ⟨false, ix, iy, bs⟩ =
      (h / bs + 2 - iy) * (w / bs + 2) + (w / bs + 2 - ix)
        + totalBound w h (bs / 2) + 1 := by
  simp [rank, innerRank, Nat.pos_iff_ne_zero.mp hbs]

lemma rank_decreases (w h : Nat) (s : RenderProgress) (hd : s.done = false) :
    rank w h (stepState w h s) < rank w h s := by
  obtain ⟨d, ix, iy, bs⟩ := s
  simp only at hd
  subst hd
  rcases Nat.eq_zero_or_pos bs with hbs0 | hbs1
  · subst hbs0
    rw [stepState_zero]
    simp [rank]
  · by_cases hy : h < iy * bs
    · rcases Nat.eq_zero_or_pos (bs / 2) with hh0 | hh1
      · rw [stepState_halve_done w h false ix iy bs hy hh0]
        have h1 := rank_ge_one w h ⟨false, ix, iy, bs⟩ rfl
        have h0 : rank w h ⟨true, if w < ix * bs then 0 else ix, 0, 0⟩ = 0 := by
          simp [rank]
        omega
      · rw [stepState_halve w h false ix iy bs hy hh1]
        rw [rank_of_live w h _ _ _ hh1, rank_of_live w h _ _ _ hbs1]
        rw [totalBound_pos w h (bs / 2) hh1]
        simp only [passBound, Nat.sub_zero]
        have hexp : (h / (bs / 2) + 3) * (w / (bs / 2) + 2)
            = (h / (bs / 2) + 2) * (w / (bs / 2) + 2) + (w / (bs / 2) + 2) := by
          rw [show h / (bs / 2) + 3 = (h / (bs / 2) + 2) + 1 from rfl, Nat.succ_mul]
        rw [hexp]
        generalize (h / (bs / 2) + 2) * (w / (bs / 2) + 2) = P
        generalize w / (bs / 2) + 2 = W2
        omega
    · by_cases hx : w < ix * bs
      · rw [stepState_wrap w h false ix iy bs hx hy hbs1]
        rw [rank_of_live w h _ _ _ hbs1, rank_of_live w h _ _ _ hbs1]
        have hiy : iy ≤ h / bs := (Nat.le_div_iff_mul_le hbs1).mpr (not_lt.mp hy)
        generalize hR : h / bs = R at hiy ⊢
        generalize hQ : w / bs = Q
        have hexp : (R + 2 - iy) * (Q + 2) = (R + 2 - (iy + 1)) * (Q + 2) + (Q + 2) := by
          rw [show R + 2 - iy = (R + 2 - (iy + 1)) + 1 by omega, Nat.succ_mul]
        rw [hexp]
        generalize (R + 2 - (iy + 1)) * (Q + 2) = P
        omega
      · rw [stepState_scan w h false ix iy bs hx hy hbs1]
        rw [rank_of_live w h _ _ _ hbs1, rank_of_live w h _ _ _ hbs1]
        have hix : ix ≤ w / bs := (Nat.le_div_iff_mul_le hbs1).mpr (not_lt.mp hx)
        generalize hQ : w / bs = Q at hix ⊢
        generalize (h / bs + 2 - iy) * (Q + 2) = P
        omega

lemma steps_reach_done_aux (w h : Nat) :
    ∀ (r : Nat) (s : RenderProgress), rank w h s ≤ r →
      ∃ n, n ≤ rank w h s ∧ ((stepState w h)^[n] s).done = true := by
  intro r
  induction r with
  | zero =>
    intro s hr
    by_cases hd : s.done = true
    · exact ⟨0, Nat.zero_le _, hd⟩
    · exfalso
      have := rank_ge_one w h s (by simpa using hd)
      omega
  | succ r ih =>
    intro s hr
    by_cases hd : s.done = true
    · exact ⟨0, Nat.zero_le _, hd⟩
    · have hdf : s.done = false := by simpa using hd
      have hlt := rank_decreases w h s hdf
      obtain ⟨n, hn, hdone⟩ := ih (stepState w h s) (by omega)
      exact ⟨n + 1, by omega, by rwa [Function.iterate_succ_apply]⟩

lemma rank_init_le (w h : Nat) : rank w h initProgress ≤ totalBound w h 128 := by
  rw [show initProgress = ⟨false, 0, 0, 128⟩ from rfl]
  rw [rank_of_live w h 0 0 128 (by omega)]
  rw [totalBound_pos w h 128 (by omega)]
  simp only [passBound, Nat.sub_zero]
  have hexp : (h / 128 + 3) * (w / 128 + 2)
      = (h / 128 + 2) * (w / 128 + 2) + (w / 128 + 2) := by
    rw [show h / 128 + 3 = (h / 128 + 2) + 1 from rfl, Nat.succ_mul]
  rw [hexp]
  generalize (h / 128 + 2) * (w / 128 + 2) = P
  omega

/-- C4: from the initial render state, repeated `step` calls reach
`done = true` within `totalBound w h 128` calls — a closed-form function of
`width`, `height` and the initial block size 128 that sums, over each
resolution level, the number of blocks at that level plus the row-wrap and
resolution-halving transition calls. -/
theorem render_completes (w h : Nat) :
    ∃ n, n ≤ totalBound w h 128 ∧ ((stepState w h)^[n] initProgress).done = true := by
  obtain ⟨n, hn, hdone⟩ :=
    steps_reach_done_aux w h (rank w h initProgress) initProgress le_rfl
  exact ⟨n, le_trans hn (rank_init_le w h), hdone⟩

lemma stepState_done_mono (w h : Nat) (s : RenderProgress) (hd : s.done = true) :
    (stepState w h s).done = true := by
  obtain ⟨d, ix, iy, bs⟩ := s
  simp only at hd
  subst hd
  rcases Nat.eq_zero_or_pos bs with h0 | h1
  · subst h0; rw [stepState_zero]
  · by_cases hy : h < iy * bs
    · rcases Nat.eq_zero_or_pos (bs / 2) with hh0 | hh1
      · rw [stepState_halve_done w h true ix iy bs hy hh0]
      · rw [stepState_halve w h true ix iy bs hy hh1]
    · by_cases hx : w < ix * bs
      · rw [stepState_wrap w h true ix iy bs hx hy h1]
      · rw [stepState_scan w h true ix iy bs hx hy h1]

lemma stepState_bs (w h : Nat) (s : RenderProgress) :
    (stepState w h s).block_size = s.block_size ∨
    (stepState w h s).block_size = s.block_size / 2 := by
  obtain ⟨d, ix, iy, bs⟩ := s
  rcases Nat.eq_zero_or_pos bs with h0 | h1
  · subst h0; left; rw [stepState_zero]
  · by_cases hy : h < iy * bs
    · rcases Nat.eq_zero_or_pos (bs / 2) with hh0 | hh1
      · right; rw [stepState_halve_done w h d ix iy bs hy hh0]; simp only; omega
      · right; rw [stepState_halve w h d ix iy bs hy hh1]
    · by_cases hx : w < ix * bs
      · left; rw [stepState_wrap w h d ix iy bs hx hy h1]
      · left; rw [stepState_scan w h d ix iy bs hx hy h1]

lemma stepState_inv (w h : Nat) (s : RenderProgress)
    (hinv : s.done = true ↔ s.block_size = 0) :
    (stepState w h s).done = true ↔ (stepState w h s).block_size = 0 := by
  obtain ⟨d, ix, iy, bs⟩ := s
  simp only at hinv
  rcases Nat.eq_zero_or_pos bs with h0 | h1
  · subst h0; rw [stepState_zero]; simp
  · have hdf : d = false := by
      cases d
      · rfl
      · exact absurd (hinv.mp rfl) (by omega)
    subst hdf
    by_cases hy : h < iy * bs
    · rcases Nat.eq_zero_or_pos (bs / 2) with hh0 | hh1
      · rw [stepState_halve_done w h false ix iy bs hy hh0]; simp
      · rw [stepState_halve w h false ix iy bs hy hh1]; simp; omega
    · by_cases hx : w < ix * bs
      · rw [stepState_wrap w h false ix iy bs hx hy h1]; simp; omega
      · rw [stepState_scan w h false ix iy bs hx hy h1]; simp; omega

lemma traj_inv (w h : Nat) (n : Nat) :
    ((stepState w h)^[n] initProgress).done = true ↔
      ((stepState w h)^[n] initProgress).block_size = 0 := by
  induction n with
  | zero => simp [initProgress]
  | succ n ih =>
    rw [Function.iterate_succ_apply']
    exact stepState_inv w h _ ih

lemma traj_bs_halving (w h : Nat) (n : Nat) :
    ∃ k, ((stepState w h)^[n] initProgress).block_size = 128 / 2 ^ k := by
  induction n with
  | zero => exact ⟨0, by simp [initProgress]⟩
  | succ n ih =>
    obtain ⟨k, hk⟩ := ih
    rw [Function.iterate_succ_apply']
    rcases stepState_bs w h ((stepState w h)^[n] initProgress) with hsame | hhalf
    · exact ⟨k, by rw [hsame, hk]⟩
    · exact ⟨k + 1, by rw [hhalf, hk, Nat.div_div_eq_div_mul, pow_succ]⟩

lemma stepState_bs_le (w h : Nat) (s : RenderProgress) :
    (stepState w h s).block_size ≤ s.block_size := by
  rcases stepState_bs w h s with h1 | h1
  · rw [h1]
  · rw [h1]; omega

lemma iterate_bs_le (w h k : Nat) (s : RenderProgress) :
    ((stepState w h)^[k] s).block_size ≤ s.block_size := by
  induction k with
  | zero => exact le_refl _
  | succ k ih =>
    rw [Function.iterate_succ_apply']
    exact le_trans (stepState_bs_le w h _) ih

lemma iterate_done_mono (w h k : Nat) (s : RenderProgress) (hd : s.done = true) :
    ((stepState w h)^[k] s).done = true := by
  induction k with
  | zero => exact hd
  | succ k ih =>
    rw [Function.iterate_succ_apply']
    exact stepState_done_mono w h _ ih

lemma reach_next_level (w h : Nat) :
    ∀ (r : Nat) (s : RenderProgress), rank w h s ≤ r → s.done = false →
      1 ≤ s.block_size →
      ∃ m, ((stepState w h)^[m] s).block_size = s.block_size / 2 := by
  intro r
  induction r with
  | zero =>
    intro s hr hd _
    exfalso
    have := rank_ge_one w h s hd
    omega
  | succ r ih =>
    intro s hr hd hbs
    obtain ⟨d, ix, iy, bs⟩ := s
    simp only at hd hbs ⊢
    subst hd
    by_cases hy : h < iy * bs
    · rcases Nat.eq_zero_or_pos (bs / 2) with hh0 | hh1
      · refine ⟨1, ?_⟩
        rw [Function.iterate_one, stepState_halve_done w h false ix iy bs hy hh0]
        simp only
        omega
      · exact ⟨1, by rw [Function.iterate_one, stepState_halve w h false ix iy bs hy hh1]⟩
    · have hlt := rank_decreases w h ⟨false, ix, iy, bs⟩ rfl
      have hstep_eq : ∃ ix' iy', stepState w h ⟨false, ix, iy, bs⟩ = ⟨false, ix', iy', bs⟩ := by
        by_cases hx : w < ix * bs
        · exact ⟨1, iy + 1, stepState_wrap w h false ix iy bs hx hy hbs⟩
        · exact ⟨ix + 1, iy, stepState_scan w h false ix iy bs hx hy hbs⟩
      obtain ⟨ix', iy', heq⟩ := hstep_eq
      obtain ⟨m, hm⟩ := ih (stepState w h ⟨false, ix, iy, bs⟩) (by omega)
        (by rw [heq]) (by rw [heq]; exact hbs)
      refine ⟨m + 1, ?_⟩
      rw [Function.iterate_succ_apply]
      rw [heq] at hm
      rw [heq]
      exact hm

lemma traj_bs_mono (w h m n : Nat) (hmn : m ≤ n) :
    ((stepState w h)^[n] initProgress).block_size ≤
      ((stepState w h)^[m] initProgress).block_size := by
  obtain ⟨k, rfl⟩ := Nat.exists_eq_add_of_le hmn
  rw [show m + k = k + m by omega, Function.iterate_add_apply]
  exact iterate_bs_le w h k _

lemma pow_div_ge (k j : Nat) (hk : k ≤ j) : 128 / 2 ^ j ≤ 128 / 2 ^ k :=
  Nat.div_le_div_left (Nat.pow_le_pow_right (by omega) hk) (by positivity)

lemma level_visited (w h : Nat) : ∀ k, k ≤ 7 →
    ∃ n, ((stepState w h)^[n] initProgress).block_size = 128 / 2 ^ k ∧
      ((stepState w h)^[n] initProgress).done = false := by
  intro k
  induction k with
  | zero =>
    intro _
    exact ⟨0, by simp [initProgress], by simp [initProgress]⟩
  | succ k ih =>
    intro hk7
    obtain ⟨n, hbs, hdone⟩ := ih (by omega)
    have hk2 : 2 ≤ 128 / 2 ^ k := by
      have := pow_div_ge k 6 (by omega)
      norm_num at this
      omega
    obtain ⟨m, hm⟩ := reach_next_level w h
      (rank w h ((stepState w h)^[n] initProgress)) _ le_rfl hdone (by omega)
    have hbsval : ((stepState w h)^[n + m] initProgress).block_size = 128 / 2 ^ (k + 1) := by
      rw [show n + m = m + n by omega, Function.iterate_add_apply, hm, hbs,
        Nat.div_div_eq_div_mul, pow_succ]
    refine ⟨n + m, hbsval, ?_⟩
    have hpos : 1 ≤ 128 / 2 ^ (k + 1) := by
      have := pow_div_ge (k + 1) 7 hk7
      norm_num at this
      omega
    have hinv := traj_inv w h (n + m)
    rcases Bool.eq_false_or_eq_true (((stepState w h)^[n + m] initProgress).done) with ht | hf
    · exfalso
      have := hinv.mp ht
      omega
    · exact hf

/-- C5: every reachable `block_size` is `128` repeatedly halved; across a
drain the levels are visited in the order 128, 64, 32, 16, 8, 4, 2, 1 with
no repeats (`block_size` never increases) and no skips (each call keeps it
or halves it), every level down to 1 is visited while still live, and
`done` becomes true, permanently, exactly when `block_size` reaches 0. -/
theorem block_size_ladder (w h : Nat) :
    (∀ n, ∃ k, ((stepState w h)^[n] initProgress).block_size = 128 / 2 ^ k) ∧
    (∀ m n, m ≤ n → ((stepState w h)^[n] initProgress).block_size ≤
        ((stepState w h)^[m] initProgress).block_size) ∧
    (∀ n, ((stepState w h)^[n + 1] initProgress).block_size =
        ((stepState w h)^[n] initProgress).block_size ∨
      ((stepState w h)^[n + 1] initProgress).block_size =
        ((stepState w h)^[n] initProgress).block_size / 2) ∧
    (∀ k, k ≤ 7 → ∃ n, ((stepState w h)^[n] initProgress).block_size = 128 / 2 ^ k ∧
        ((stepState w h)^[n] initProgress).done = false) ∧
    (∃ n, ((stepState w h)^[n] initProgress).done = true ∧
        ((stepState w h)^[n] initProgress).block_size = 0) ∧
    (∀ n, ((stepState w h)^[n] initProgress).done = true ↔
        ((stepState w h)^[n] initProgress).block_size = 0) ∧
    (∀ n m, n ≤ m → ((stepState w h)^[n] initProgress).done = true →
        ((stepState w h)^[m] initProgress).done = true) := by
  refine ⟨traj_bs_halving w h, fun m n hmn => traj_bs_mono w h m n hmn, ?_, level_visited w h,
    ?_, traj_inv w h, ?_⟩
  · intro n
    rw [Function.iterate_succ_apply']
    exact stepState_bs w h _
  · obtain ⟨n, _, hdone⟩ :=
      steps_reach_done_aux w h (rank w h initProgress) initProgress le_rfl
    exact ⟨n, hdone, (traj_inv w h n).mp hdone⟩
  · intro n m hnm hdone
    obtain ⟨k, rfl⟩ := Nat.exists_eq_add_of_le hnm
    rw [show n + k = k + n by omega, Function.iterate_add_apply]
    exact iterate_done_mono w h k _ hdone

/-- Concrete instance of `block_size_ladder` on a 2×2 viewport. -/
theorem block_size_ladder_witness :
    ((stepState 2 2)^[1] initProgress).block_size ≤
      ((stepState 2 2)^[0] initProgress).block_size ∧
    (∃ n, ((stepState 2 2)^[n] initProgress).done = true ∧
      ((stepState 2 2)^[n] initProgress).block_size = 0) :=
  ⟨(block_size_ladder 2 2).2.1 0 1 (by omega), (block_size_ladder 2 2).2.2.2.2.1⟩

/-! ## Coordinate mapping, frame deadline, brightness safety -/

/-- Even-dimension viewport with an off-origin center, for witnesses. -/
def paramsC8 : RenderParams :=
  { center_re := 1 / 2, center_im := -3, width := 4, height := 2,
    real_domain := 4, max_iter := 1 }

/-- C8: for a viewport with even, positive width and even height,
`screen_to_world` maps the exact center pixel `(width/2, height/2)` to the
viewport center — exactly, in the rational model of the `f64` arithmetic. -/
theorem center_pixel_maps_to_center (p : RenderParams) (hw : 0 < p.width)
    (h2w : 2 ∣ p.width) (h2h : 2 ∣ p.height) :
    screen_to_world (p.width / 2) (p.height / 2) p = (p.center_re, p.center_im) := by
  obtain ⟨cre, cim, W, H, rd, mi⟩ := p
  simp only at hw h2w h2h ⊢
  obtain ⟨a, rfl⟩ := h2w
  obtain ⟨b, rfl⟩ := h2h
  simp only [screen_to_world]
  rw [Nat.mul_div_cancel_left a (by omega), Nat.mul_div_cancel_left b (by omega)]
  apply Prod.ext <;> (simp only []; push_cast; ring_nf)

/-- Concrete instance of `center_pixel_maps_to_center` on a 4×2 viewport
centered at `1/2 - 3i`. -/
theorem center_pixel_maps_to_center_witness :
    screen_to_world 2 1 paramsC8 = (paramsC8.center_re, paramsC8.center_im) :=
  center_pixel_maps_to_center paramsC8 (by decide) (by decide) (by decide)

/-- C9: the frame loop's deadline check compares the budget against
`elapsed().subsec_nanos()`, the sub-second component of the elapsed time.
With synthetic readings `[0 ns, 1000000005 ns]` the loop issues a second
`step` call even though the elapsed time at the preceding check
(1.000000005 s) is far beyond the 16 ms budget, because the reading wraps
to 5 ns.  Evaluation of the loop model at that failing input. -/
theorem deadline_check_uses_subsec_nanos :
    stepsIssued [0, 1000000005] = 2 ∧ subsecNanos 1000000005 = 5 ∧
    budgetNanos ≤ (1000000005 : Int) := by
  refine ⟨?_, rfl, by norm_num [budgetNanos]⟩
  decide

/-- C10: under the engine's own invariants — `1 ≤ max_iter ≤ 2^20`, as the
iteration-adjustment clamps maintain, and `n ≤ max_iter` from the escape
evaluator — the `u32` product `255 * n` does not overflow, the quotient is
at most 255, and the `as u8` narrowing is lossless; the clamps themselves
keep `max_iter` in `[1, 2^20]`. -/
theorem brightness_safe (z : ℚ × ℚ) (mi : Nat) (h1 : 1 ≤ mi) (h2 : mi ≤ 2 ^ 20) :
    255 * mandelbrot z mi < 2 ^ 32 ∧
    brightnessOf (mandelbrot z mi) mi = 255 * mandelbrot z mi / mi ∧
    255 * mandelbrot z mi / mi ≤ 255 ∧
    1 ≤ iterDown mi ∧ iterDown mi ≤ 2 ^ 20 ∧ 1 ≤ iterUp mi ∧ iterUp mi ≤ 2 ^ 20 := by
  have hn := mandelbrot_le z mi
  have hmul : mi * 2 < U32 := by
    calc mi * 2 ≤ 2 ^ 20 * 2 := Nat.mul_le_mul_right 2 h2
    _ < U32 := by norm_num [U32]
  refine ⟨?_, brightnessOf_eq _ _ hn h2, ?_, le_max_right _ _,
    max_le (le_trans (Nat.div_le_self _ _) h2) (by norm_num), ?_, min_le_right _ _⟩
  · calc 255 * mandelbrot z mi ≤ 255 * 2 ^ 20 := Nat.mul_le_mul_left _ (le_trans hn h2)
    _ < 2 ^ 32 := by norm_num
  · have := Nat.div_le_div_right (c := mi) (Nat.mul_le_mul_left 255 hn)
    rwa [Nat.mul_div_cancel _ (by omega)] at this
  · rw [iterUp, Nat.mod_eq_of_lt hmul]
    exact le_min (by omega) (by norm_num)

/-- Concrete instance of `brightness_safe` at the origin with the default
cap 64. -/
theorem brightness_safe_witness :
    255 * mandelbrot ((0 : ℚ), (0 : ℚ)) 64 < 2 ^ 32 ∧
    brightnessOf (mandelbrot ((0 : ℚ), (0 : ℚ)) 64) 64 =
      255 * mandelbrot ((0 : ℚ), (0 : ℚ)) 64 / 64 ∧
    255 * mandelbrot ((0 : ℚ), (0 : ℚ)) 64 / 64 ≤ 255 ∧
    1 ≤ iterDown 64 ∧ iterDown 64 ≤ 2 ^ 20 ∧ 1 ≤ iterUp 64 ∧ iterUp 64 ≤ 2 ^ 20 :=
  brightness_safe ((0 : ℚ), (0 : ℚ)) 64 (by omega) (by norm_num)

end FractalExplorer
